import Mathlib

/-!
Verification of the firewall decision-graph program (`src/index.ts`).

The program builds a layered decision graph for firewall rules:
`Domain` subclasses (`IpRange`, `PortRange`, `Protocol`, `Action`) encode
external header values into integers and track which integers are still
available; `NonTerminalNode.addEdge` consumes one value from the owning
node's `Domain` per inserted edge, or throws `ValueNotAvailableError`.

Embedding conventions:
 - JS strings are modelled as `List Char` (`JSStr`); string literals are
   converted through `strToList`.
 - JS numbers that arise in this program are integers or `NaN`; they are
   modelled as `Option Int` (`JSNum`) with `none` playing the role of `NaN`.
 - JS 32-bit coercions (`<<`, `>>`, `>>> 0`, `& 255`) are modelled with
   explicit wrap-around arithmetic on `Int` (`wrap32`, `jsToUint32`, ...).
   Lean's `/` and `%` on `Int` are Euclidean, so for a positive divisor they
   agree with the floor semantics of JS arithmetic shift and sign-masking.
 - `Set<number>` availability pools are modelled as `Finset Int`.  A JS
   `Set` could in principle hold `NaN`, but no `Domain` in this program ever
   inserts `NaN` (range loops and `indexOf` produce only integers), so
   availability queries on `NaN` are `false`.
 - throwing is modelled with `Except`: `addEdge` either returns the updated
   node or the thrown `ValueNotAvailableError`.
-/

namespace FirewallBP

/-- Characters of a JS string. -/
abbrev JSStr := List Char

/-- A JS number as it occurs in this program: an integer, or `none` for NaN. -/
abbrev JSNum := Option Int

/-- View a Lean string literal as its character list. -/
def strToList (s : String) : JSStr := s.data

/-- JS `ToInt32` on an integer: wrap into `[-2^31, 2^31)`. -/
def wrap32 (x : Int) : Int := (x + 2147483648) % 4294967296 - 2147483648

/-- JS `ToInt32` on a number (NaN coerces to 0). -/
def jsToInt32 : JSNum → Int
  | some n => wrap32 n
  | none => 0

/-- JS `>>> 0` (`ToUint32`): wrap into `[0, 2^32)`; NaN coerces to 0. -/
def jsToUint32 : JSNum → Int
  | some n => n % 4294967296
  | none => 0

/-- JS `x << 8`: coerce the operand with `ToInt32`, shift, wrap to int32. -/
def jsShl8 (x : JSNum) : Int := wrap32 (jsToInt32 x * 256)

/-- JS `x >> k`: `ToInt32`, then arithmetic shift right (floor division). -/
def jsShr (x : Int) (k : Nat) : Int := wrap32 x / 2 ^ k

/-- JS `x & 255`: `ToInt32`, then keep the low 8 bits (value mod 256). -/
def jsAnd255 (x : Int) : Int := wrap32 x % 256

/-- The decimal digit character for `d < 10`. -/
def digitChar (d : Nat) : Char := Char.ofNat (48 + d)

/-- Numeric value of a decimal digit character. -/
def digitVal (c : Char) : Nat := c.toNat - 48

/-- Is `c` a decimal digit? -/
def isDigitCh (c : Char) : Bool := 48 ≤ c.toNat && c.toNat ≤ 57

/-- Value of a string of decimal digits, most significant first. -/
def decVal (s : JSStr) : Nat := s.foldl (fun a c => 10 * a + digitVal c) 0

/-- Fuelled decimal printing helper (fuel bounds the number of digits). -/
def natToDecAux : Nat → Nat → List Char → List Char
  | 0, _, acc => acc
  | fuel + 1, n, acc =>
    if n < 10 then digitChar n :: acc
    else natToDecAux fuel (n / 10) (digitChar (n % 10) :: acc)

/-- JS `Number.prototype.toString` for a natural number: canonical decimal. -/
def natToDec (n : Nat) : JSStr := natToDecAux (n + 1) n []

/-- JS `Number.prototype.toString` for an integer. -/
def intToDec (i : Int) : JSStr := if i < 0 then '-' :: natToDec (-i).toNat else natToDec i.toNat

/-- Longest prefix of decimal digits. -/
def leadingDigits (s : JSStr) : JSStr := s.takeWhile isDigitCh

/-- JS `parseInt(s, 10)` as used by this program: an optional sign followed
by the longest digit prefix; `none` (NaN) when no digits lead the string.
(The full JS `parseInt` also skips leading whitespace, which never occurs in
this program's inputs.) -/
def jsParseInt : JSStr → JSNum
  | [] => none
  | c :: rest =>
    if c = '-' then
      if leadingDigits rest = [] then none else some (-(decVal (leadingDigits rest) : Int))
    else if c = '+' then
      if leadingDigits rest = [] then none else some ((decVal (leadingDigits rest) : Int))
    else
      if leadingDigits (c :: rest) = [] then none
      else some ((decVal (leadingDigits (c :: rest)) : Int))

/-- Helper for `splitOnDot`: `cur` holds the current chunk reversed. -/
def splitOnDotAux : JSStr → JSStr → List JSStr
  | [], cur => [cur.reverse]
  | c :: rest, cur =>
    if c = '.' then cur.reverse :: splitOnDotAux rest []
    else splitOnDotAux rest (c :: cur)

/-- JS `s.split(".")`. -/
def splitOnDot (s : JSStr) : List JSStr := splitOnDotAux s []

/-- JS `parts.join(".")`. -/
def joinDots : List JSStr → JSStr
  | [] => []
  | [x] => x
  | x :: y :: ys => x ++ '.' :: joinDots (y :: ys)

/-- Helper for `jsIndexOf`, carrying the index of the list head. -/
def jsIndexOfAux (v : JSStr) : List JSStr → Int → Int
  | [], _ => -1
  | x :: xs, i => if x = v then i else jsIndexOfAux v xs (i + 1)

/-- JS `Array.prototype.indexOf`: first index of `v`, or -1 when absent. -/
def jsIndexOf (l : List JSStr) (v : JSStr) : Int := jsIndexOfAux v l 0

/-- JS array indexing `l[i]` for string arrays; out-of-range access yields
`undefined`, modelled as `[]` (never reached by in-range uses). -/
def listGetStr (l : List JSStr) (i : Int) : JSStr :=
  if h : 0 ≤ i ∧ i.toNat < l.length then l.get ⟨i.toNat, h.2⟩ else []

/-- The `Domain` abstract class: the availability pool
(`availableValuesSet`) together with the subclass's encode/decode methods.
`start`/`end` bookkeeping fields are omitted: no claim reads them. -/
structure DomainM where
  availableValuesSet : Finset Int
  getDomainValue : JSStr → JSNum
  getRangeValue : Int → JSStr

/-- Source `Domain.has(value)`: membership in the current availability pool.
No `Domain` of this program ever inserts `NaN`, so `has(NaN)` is false. -/
def DomainM.has (d : DomainM) (v : JSNum) : Bool :=
  match v with
  | some n => decide (n ∈ d.availableValuesSet)
  | none => false

/-- Source `Domain.delete(value)`: remove a value from the availability pool. -/
def DomainM.delete (d : DomainM) (v : JSNum) : DomainM :=
  match v with
  | some n => { d with availableValuesSet := d.availableValuesSet.erase n }
  | none => d

/-- Source `Domain.add(value)` on the pool (no-op for NaN, which never occurs). -/
def addValue (s : Finset Int) : JSNum → Finset Int
  | some n => insert n s
  | none => s

/-- The range-population loop `for (let i = start; i <= end; i++) add(i)`:
the set of the `(stop + 1 - start)` integers from `start` upward
(empty when `stop < start`, mirroring a loop that never runs). -/
def rangeFinset (start stop : Int) : Finset Int :=
  ((List.range (stop + 1 - start).toNat).map (fun k => start + Int.ofNat k)).toFinset

/-- Source `IpRange.getDomainValue` before boxing: split on dots and fold
`(acc << 8) + parseInt(octet, 10)`, then `>>> 0`. -/
def ipEncode (value : JSStr) : Int :=
  jsToUint32 ((splitOnDot value).foldl
    (fun acc octet =>
      match jsParseInt octet with
      | none => none
      | some p => some (jsShl8 acc + p))
    (some 0))

/-- Source `IpRange.getDomainValue`: always a number thanks to the final `>>> 0`. -/
def ipGetDomainValue (value : JSStr) : JSNum := some (ipEncode value)

/-- Source `IpRange.getRangeValue`: extract the four octets with shifts and masks
and join their decimal forms with dots. -/
def ipGetRangeValue (value : Int) : JSStr :=
  joinDots [intToDec (jsAnd255 (jsShr value 24)), intToDec (jsAnd255 (jsShr value 16)),
    intToDec (jsAnd255 (jsShr value 8)), intToDec (jsAnd255 value)]

/-- Source `IpRange.createRangeSet`: every integer between the encoded bounds. -/
def ipCreateRangeSet (start stop : JSStr) : Finset Int :=
  rangeFinset (ipEncode start) (ipEncode stop)

/-- An `IpRange` domain as built by `new IpRange(start, end)`. -/
def mkIpRange (start stop : JSStr) : DomainM :=
  { availableValuesSet := ipCreateRangeSet start stop
    getDomainValue := ipGetDomainValue
    getRangeValue := ipGetRangeValue }

/-- Source `PortRange.getDomainValue`: `parseInt(value)`. -/
def portGetDomainValue (value : JSStr) : JSNum := jsParseInt value

/-- Source `PortRange.getRangeValue`: `value.toString()`. -/
def portGetRangeValue (value : Int) : JSStr := intToDec value

/-- Source `PortRange.createRangeSet`: every integer in `[start, end]`. -/
def portCreateRangeSet (start stop : Int) : Finset Int := rangeFinset start stop

/-- A `PortRange` domain as built by `new PortRange(start, end)`. -/
def mkPortRange (start stop : Int) : DomainM :=
  { availableValuesSet := portCreateRangeSet start stop
    getDomainValue := portGetDomainValue
    getRangeValue := portGetRangeValue }

/-- Source `Protocol.protocolList`. -/
def protocolList : List JSStr := [strToList "tcp", strToList "udp", strToList "icmp"]

/-- Source `Protocol.getDomainValue`: index into the protocol list (-1 if absent). -/
def protocolGetDomainValue (value : JSStr) : JSNum := some (jsIndexOf protocolList value)

/-- Source `Protocol.getRangeValue`: index the protocol list. -/
def protocolGetRangeValue (value : Int) : JSStr := listGetStr protocolList value

/-- Source `Protocol.createRangeSet`: add the encoding of each listed protocol. -/
def protocolCreateRangeSet : Finset Int :=
  protocolList.foldl (fun s p => addValue s (protocolGetDomainValue p)) ∅

/-- A `Protocol` domain as built by `new Protocol()`. -/
def mkProtocol : DomainM :=
  { availableValuesSet := protocolCreateRangeSet
    getDomainValue := protocolGetDomainValue
    getRangeValue := protocolGetRangeValue }

/-- Source `Action.actionList`. -/
def actionList : List JSStr := [strToList "allow", strToList "discard"]

/-- Source `Action.getDomainValue`: index into the action list (-1 if absent). -/
def actionGetDomainValue (value : JSStr) : JSNum := some (jsIndexOf actionList value)

/-- Source `Action.getRangeValue`: index the action list. -/
def actionGetRangeValue (value : Int) : JSStr := listGetStr actionList value

/-- Source `Action.createRangeSet`: add the encoding of each listed action. -/
def actionCreateRangeSet : Finset Int :=
  actionList.foldl (fun s p => addValue s (actionGetDomainValue p)) ∅

/-- An `Action` domain as built by `new Action()`. -/
def mkAction : DomainM :=
  { availableValuesSet := actionCreateRangeSet
    getDomainValue := actionGetDomainValue
    getRangeValue := actionGetRangeValue }

/-- The `NodeType` union of header-dimension tags. -/
inductive NodeType where
  | source_ip
  | destination_ip
  | source_port
  | destination_port
  | protocol
  | action

/-- An `Edge`: source and target node references (abstract, of type `τ`,
since the claims never dereference them) and the literal value label. -/
structure Edge (τ : Type) where
  source : τ
  target : τ
  value : JSStr

/-- A `NonTerminalNode`: header tag, owned `Domain`, ordered edge list. -/
structure NonTerminalNode (τ : Type) where
  type : NodeType
  domain : DomainM
  edges : List (Edge τ)

/-- Source `ValueNotAvailableError`: carries the offending node and raw value. -/
structure ValueNotAvailableError (τ : Type) where
  node : NonTerminalNode τ
  value : JSStr

/-- A freshly constructed non-terminal node: empty edge list. -/
def mkNonTerminalNode {τ : Type} (t : NodeType) (d : DomainM) : NonTerminalNode τ :=
  { type := t, domain := d, edges := [] }

/-- Source `NonTerminalNode.addEdge`: throw `ValueNotAvailableError` when the
decoded value is unavailable; otherwise consume it from the domain and
append the edge.  (The source tests `!has(...)` and throws; the branches
here are the same two, with the success case spelled positively.) -/
def addEdge {τ : Type} (n : NonTerminalNode τ) (edge : Edge τ) :
    Except (ValueNotAvailableError τ) (NonTerminalNode τ) :=
  if n.domain.has (n.domain.getDomainValue edge.value) then
    Except.ok { n with domain := n.domain.delete (n.domain.getDomainValue edge.value),
                       edges := n.edges ++ [edge] }
  else
    Except.error { node := n, value := edge.value }

/-- Run a sequence of `addEdge` calls; a call that throws leaves the node
unchanged (the exception propagates to the caller, not into the node). -/
def runEdges {τ : Type} (n : NonTerminalNode τ) : List (Edge τ) → NonTerminalNode τ
  | [] => n
  | e :: es =>
    match addEdge n e with
    | Except.ok m => runEdges m es
    | Except.error _ => runEdges n es

/-- A `TerminalNode`: header tag, private `Domain`, decision literal.
The constructor stores its arguments and performs no validation. -/
structure TerminalNode where
  type : NodeType
  domain : DomainM
  value : JSStr

/-- The `TerminalNode` constructor. -/
def mkTerminalNode (t : NodeType) (d : DomainM) (v : JSStr) : TerminalNode :=
  { type := t, domain := d, value := v }

/-- Source `new ActionNode("action", value)`: a terminal node over a fresh
`Action` domain. -/
def mkActionNode (v : JSStr) : TerminalNode :=
  mkTerminalNode NodeType.action mkAction v

/-- The canonical dotted-quad string with octets `a.b.c.d`: each octet
written as its canonical decimal numeral.  These are exactly the admissible
external values of an address-range domain. -/
def quadStr (a b c d : Nat) : JSStr :=
  natToDec a ++ ('.' :: (natToDec b ++ ('.' :: (natToDec c ++ ('.' :: natToDec d)))))

/-
Lemma layer: decimal printing and parsing.
-/

theorem natToDecAux_append (fuel : Nat) : ∀ (n : Nat) (acc : List Char),
    natToDecAux fuel n acc = natToDecAux fuel n [] ++ acc := by
  induction fuel with
  | zero => intro n acc; simp [natToDecAux]
  | succ f ih =>
    intro n acc
    by_cases h : n < 10
    · simp [natToDecAux, h]
    · simp only [natToDecAux, if_neg h]
      rw [ih (n / 10) (digitChar (n % 10) :: acc), ih (n / 10) [digitChar (n % 10)]]
      simp

theorem natToDecAux_fuel (f1 : Nat) : ∀ (f2 n : Nat), n < f1 → n < f2 →
    natToDecAux f1 n [] = natToDecAux f2 n [] := by
  induction f1 with
  | zero => intro f2 n h1 _; omega
  | succ f ih =>
    intro f2 n h1 h2
    cases f2 with
    | zero => omega
    | succ g =>
      by_cases h : n < 10
      · simp [natToDecAux, h]
      · simp only [natToDecAux, if_neg h]
        rw [natToDecAux_append f, natToDecAux_append g]
        rw [ih g (n / 10) (by omega) (by omega)]

theorem natToDec_lt10 {n : Nat} (h : n < 10) : natToDec n = [digitChar n] := by
  simp [natToDec, natToDecAux, h]

theorem natToDec_ge10 {n : Nat} (h : 10 ≤ n) :
    natToDec n = natToDec (n / 10) ++ [digitChar (n % 10)] := by
  show natToDecAux (n + 1) n [] = _
  simp only [natToDecAux, if_neg (by omega : ¬ n < 10)]
  rw [natToDecAux_append n]
  unfold natToDec
  rw [natToDecAux_fuel n (n / 10 + 1) (n / 10) (by omega) (by omega)]

theorem digitChar_isDigit : ∀ d : Nat, d < 10 → isDigitCh (digitChar d) = true := by decide

theorem digitVal_digitChar : ∀ d : Nat, d < 10 → digitVal (digitChar d) = d := by decide

theorem natToDec_digits (n : Nat) : ∀ c ∈ natToDec n, isDigitCh c = true := by
  induction n using Nat.strong_induction_on with
  | _ n ih =>
    by_cases h : n < 10
    · rw [natToDec_lt10 h]
      intro c hc
      simp only [List.mem_singleton] at hc
      subst hc
      exact digitChar_isDigit n h
    · rw [natToDec_ge10 (by omega)]
      intro c hc
      rcases List.mem_append.mp hc with h1 | h2
      · exact ih (n / 10) (by omega) c h1
      · simp only [List.mem_singleton] at h2
        subst h2
        exact digitChar_isDigit _ (by omega)

theorem decVal_append (s : JSStr) (c : Char) :
    decVal (s ++ [c]) = 10 * decVal s + digitVal c := by
  simp [decVal, List.foldl_append]

theorem decVal_natToDec (n : Nat) : decVal (natToDec n) = n := by
  induction n using Nat.strong_induction_on with
  | _ n ih =>
    by_cases h : n < 10
    · rw [natToDec_lt10 h]
      show 10 * 0 + digitVal (digitChar n) = n
      rw [digitVal_digitChar n h]
      omega
    · rw [natToDec_ge10 (by omega), decVal_append, ih (n / 10) (by omega),
        digitVal_digitChar _ (by omega)]
      omega

theorem natToDec_ne_nil (n : Nat) : natToDec n ≠ [] := by
  by_cases h : n < 10
  · rw [natToDec_lt10 h]; simp
  · rw [natToDec_ge10 (by omega)]; simp

theorem leadingDigits_all (s : JSStr) (h : ∀ c ∈ s, isDigitCh c = true) :
    leadingDigits s = s := by
  induction s with
  | nil => rfl
  | cons c cs ih =>
    have hc := h c (by simp)
    have hcs := ih (fun x hx => h x (by simp [hx]))
    simp only [leadingDigits] at hcs ⊢
    rw [List.takeWhile_cons, if_pos hc, hcs]

theorem isDigit_ne_dash {c : Char} (h : isDigitCh c = true) : c ≠ '-' := by
  intro hc; subst hc; exact absurd h (by decide)

theorem isDigit_ne_plus {c : Char} (h : isDigitCh c = true) : c ≠ '+' := by
  intro hc; subst hc; exact absurd h (by decide)

theorem isDigit_ne_dot {c : Char} (h : isDigitCh c = true) : c ≠ '.' := by
  intro hc; subst hc; exact absurd h (by decide)

theorem jsParseInt_natToDec (n : Nat) : jsParseInt (natToDec n) = some (n : Int) := by
  have hdig : ∀ x ∈ natToDec n, isDigitCh x = true := natToDec_digits n
  have hlead : leadingDigits (natToDec n) = natToDec n := leadingDigits_all _ hdig
  have hval : decVal (natToDec n) = n := decVal_natToDec n
  obtain ⟨c, cs, hcons⟩ : ∃ c cs, natToDec n = c :: cs := by
    cases h : natToDec n with
    | nil => exact absurd h (natToDec_ne_nil n)
    | cons c cs => exact ⟨c, cs, rfl⟩
  have hc : isDigitCh c = true := hdig c (by rw [hcons]; simp)
  rw [hcons] at hlead hval ⊢
  simp only [jsParseInt, if_neg (isDigit_ne_dash hc), if_neg (isDigit_ne_plus hc), hlead, hval]
  simp

theorem intToDec_ofNat (n : Nat) : intToDec ((n : Nat) : Int) = natToDec n := by
  simp [intToDec]

/-
Lemma layer: splitting on dots.
-/

theorem splitOnDotAux_chunk (l : JSStr) : ∀ (rest cur : JSStr), (∀ c ∈ l, c ≠ '.') →
    splitOnDotAux (l ++ '.' :: rest) cur = (cur.reverse ++ l) :: splitOnDotAux rest [] := by
  induction l with
  | nil => intro rest cur _; simp [splitOnDotAux]
  | cons c cs ih =>
    intro rest cur h
    have hc : c ≠ '.' := h c (by simp)
    simp only [List.cons_append, splitOnDotAux, if_neg hc, List.append_eq]
    rw [ih rest (c :: cur) (fun x hx => h x (by simp [hx]))]
    simp

theorem splitOnDotAux_last (l : JSStr) : ∀ cur : JSStr, (∀ c ∈ l, c ≠ '.') →
    splitOnDotAux l cur = [cur.reverse ++ l] := by
  induction l with
  | nil => intro cur _; simp [splitOnDotAux]
  | cons c cs ih =>
    intro cur h
    have hc : c ≠ '.' := h c (by simp)
    simp only [splitOnDotAux, if_neg hc]
    rw [ih (c :: cur) (fun x hx => h x (by simp [hx]))]
    simp

theorem splitOnDot_quad (a b c d : JSStr)
    (ha : ∀ x ∈ a, x ≠ '.') (hb : ∀ x ∈ b, x ≠ '.')
    (hc : ∀ x ∈ c, x ≠ '.') (hd : ∀ x ∈ d, x ≠ '.') :
    splitOnDot (a ++ ('.' :: (b ++ ('.' :: (c ++ ('.' :: d)))))) = [a, b, c, d] := by
  unfold splitOnDot
  rw [splitOnDotAux_chunk a _ [] ha, splitOnDotAux_chunk b _ [] hb,
    splitOnDotAux_chunk c _ [] hc, splitOnDotAux_last d [] hd]
  simp

theorem natToDec_no_dot (n : Nat) : ∀ c ∈ natToDec n, c ≠ '.' :=
  fun c hc => isDigit_ne_dot (natToDec_digits n c hc)

/-
Lemma layer: the address-range encoding.
-/

theorem ip_fold_arith (a b c d : Int)
    (ha1 : 0 ≤ a) (ha2 : a < 256) (hb1 : 0 ≤ b) (hb2 : b < 256)
    (hc1 : 0 ≤ c) (hc2 : c < 256) (hd1 : 0 ≤ d) (hd2 : d < 256) :
    jsToUint32 (some (jsShl8 (some (jsShl8 (some (jsShl8 (some (jsShl8 (some 0) + a)) + b)) + c)) + d)) =
      a * 16777216 + b * 65536 + c * 256 + d := by
  simp only [jsShl8, jsToInt32, jsToUint32, wrap32]
  omega

theorem ipEncode_quad (a b c d : Nat)
    (ha : a < 256) (hb : b < 256) (hc : c < 256) (hd : d < 256) :
    ipEncode (quadStr a b c d) =
      (a : Int) * 16777216 + (b : Int) * 65536 + (c : Int) * 256 + (d : Int) := by
  unfold ipEncode quadStr
  rw [splitOnDot_quad _ _ _ _ (natToDec_no_dot a) (natToDec_no_dot b)
    (natToDec_no_dot c) (natToDec_no_dot d)]
  simp only [List.foldl_cons, List.foldl_nil, jsParseInt_natToDec]
  exact ip_fold_arith (a : Int) (b : Int) (c : Int) (d : Int)
    (Int.ofNat_nonneg a) (by exact_mod_cast ha) (Int.ofNat_nonneg b) (by exact_mod_cast hb)
    (Int.ofNat_nonneg c) (by exact_mod_cast hc) (Int.ofNat_nonneg d) (by exact_mod_cast hd)

theorem ip_byte_extract (a b c d : Int)
    (ha1 : 0 ≤ a) (ha2 : a < 256) (hb1 : 0 ≤ b) (hb2 : b < 256)
    (hc1 : 0 ≤ c) (hc2 : c < 256) (hd1 : 0 ≤ d) (hd2 : d < 256) :
    jsAnd255 (jsShr (a * 16777216 + b * 65536 + c * 256 + d) 24) = a ∧
    jsAnd255 (jsShr (a * 16777216 + b * 65536 + c * 256 + d) 16) = b ∧
    jsAnd255 (jsShr (a * 16777216 + b * 65536 + c * 256 + d) 8) = c ∧
    jsAnd255 (a * 16777216 + b * 65536 + c * 256 + d) = d := by
  simp only [jsAnd255, jsShr, wrap32]
  norm_num
  refine ⟨by omega, by omega, by omega, by omega⟩

theorem ipDecode_quad (a b c d : Nat)
    (ha : a < 256) (hb : b < 256) (hc : c < 256) (hd : d < 256) :
    ipGetRangeValue ((a : Int) * 16777216 + (b : Int) * 65536 + (c : Int) * 256 + (d : Int)) =
      quadStr a b c d := by
  obtain ⟨h24, h16, h8, h0⟩ := ip_byte_extract (a : Int) (b : Int) (c : Int) (d : Int)
    (Int.ofNat_nonneg a) (by exact_mod_cast ha) (Int.ofNat_nonneg b) (by exact_mod_cast hb)
    (Int.ofNat_nonneg c) (by exact_mod_cast hc) (Int.ofNat_nonneg d) (by exact_mod_cast hd)
  unfold ipGetRangeValue
  rw [h24, h16, h8, h0, intToDec_ofNat, intToDec_ofNat, intToDec_ofNat, intToDec_ofNat]
  simp [joinDots, quadStr]

/-
Lemma layer: domains and nodes.
-/

theorem delete_getDomainValue (d : DomainM) (v : JSNum) :
    (d.delete v).getDomainValue = d.getDomainValue := by
  cases v <;> rfl

theorem delete_avail_subset (d : DomainM) (v : JSNum) :
    (d.delete v).availableValuesSet ⊆ d.availableValuesSet := by
  cases v with
  | none => exact Finset.Subset.refl _
  | some k => exact Finset.erase_subset k d.availableValuesSet

theorem has_false_of_subset {d d' : DomainM} (hsub : d'.availableValuesSet ⊆ d.availableValuesSet)
    (w : JSNum) (h : d.has w = false) : d'.has w = false := by
  cases w with
  | none => rfl
  | some m =>
    simp only [DomainM.has, decide_eq_false_iff_not] at h ⊢
    exact fun hm => h (hsub hm)

theorem delete_has_false (d : DomainM) (v w : JSNum) (h : d.has w = false) :
    (d.delete v).has w = false :=
  has_false_of_subset (delete_avail_subset d v) w h

theorem delete_has_self (d : DomainM) (k : Int) :
    (d.delete (some k)).has (some k) = false := by
  simp [DomainM.delete, DomainM.has]

theorem addEdge_ok_of_has {τ : Type} (n : NonTerminalNode τ) (e : Edge τ)
    (h : n.domain.has (n.domain.getDomainValue e.value) = true) :
    addEdge n e = Except.ok { n with domain := n.domain.delete (n.domain.getDomainValue e.value),
                                     edges := n.edges ++ [e] } := by
  simp [addEdge, h]

theorem addEdge_error_of_not_has {τ : Type} (n : NonTerminalNode τ) (e : Edge τ)
    (h : n.domain.has (n.domain.getDomainValue e.value) = false) :
    addEdge n e = Except.error { node := n, value := e.value } := by
  simp [addEdge, h]

theorem runEdges_getDomainValue {τ : Type} (es : List (Edge τ)) :
    ∀ n : NonTerminalNode τ, (runEdges n es).domain.getDomainValue = n.domain.getDomainValue := by
  induction es with
  | nil => intro n; rfl
  | cons e es ih =>
    intro n
    by_cases hb : n.domain.has (n.domain.getDomainValue e.value) = true
    · simp only [runEdges, addEdge, if_pos hb]
      rw [ih]
      exact delete_getDomainValue n.domain _
    · simp only [runEdges, addEdge, if_neg hb]
      exact ih n

theorem runEdges_avail_subset {τ : Type} (es : List (Edge τ)) :
    ∀ n : NonTerminalNode τ,
      (runEdges n es).domain.availableValuesSet ⊆ n.domain.availableValuesSet := by
  induction es with
  | nil => intro n; exact Finset.Subset.refl _
  | cons e es ih =>
    intro n
    by_cases hb : n.domain.has (n.domain.getDomainValue e.value) = true
    · simp only [runEdges, addEdge, if_pos hb]
      exact (ih _).trans (delete_avail_subset n.domain _)
    · simp only [runEdges, addEdge, if_neg hb]
      exact ih n

theorem runEdges_inv {τ : Type} (es : List (Edge τ)) :
    ∀ n : NonTerminalNode τ,
      (∀ f ∈ n.edges, n.domain.has (n.domain.getDomainValue f.value) = false) →
      (n.edges.map (fun f => n.domain.getDomainValue f.value)).Pairwise (· ≠ ·) →
      (∀ f ∈ (runEdges n es).edges,
          (runEdges n es).domain.has ((runEdges n es).domain.getDomainValue f.value) = false) ∧
      ((runEdges n es).edges.map
          (fun f => (runEdges n es).domain.getDomainValue f.value)).Pairwise (· ≠ ·) := by
  induction es with
  | nil => intro n h1 h2; exact ⟨h1, h2⟩
  | cons e es ih =>
    intro n h1 h2
    by_cases hb : n.domain.has (n.domain.getDomainValue e.value) = true
    · simp only [runEdges, addEdge, if_pos hb]
      apply ih
      · intro f hf
        rw [delete_getDomainValue]
        rcases List.mem_append.mp hf with hmem | hnew
        · exact delete_has_false _ _ _ (h1 f hmem)
        · have hfe : f = e := by simpa using hnew
          subst hfe
          obtain ⟨k, hk⟩ : ∃ k, n.domain.getDomainValue f.value = some k := by
            cases hv : n.domain.getDomainValue f.value with
            | none => rw [hv] at hb; simp [DomainM.has] at hb
            | some k => exact ⟨k, rfl⟩
          rw [hk]
          exact delete_has_self n.domain k
      · rw [delete_getDomainValue, List.map_append, List.pairwise_append]
        refine ⟨h2, by simp, ?_⟩
        intro u hu v hv
        simp only [List.mem_map] at hu
        obtain ⟨f, hf, hfu⟩ := hu
        simp only [List.map_cons, List.map_nil, List.mem_singleton] at hv
        subst hfu
        subst hv
        intro heq
        have hff := h1 f hf
        rw [heq] at hff
        rw [hff] at hb
        exact Bool.false_ne_true hb
    · simp only [runEdges, addEdge, if_neg hb]
      exact ih n h1 h2

theorem jsIndexOfAux_not_mem (v : JSStr) : ∀ (l : List JSStr) (i : Int),
    v ∉ l → jsIndexOfAux v l i = -1 := by
  intro l
  induction l with
  | nil => intro i _; rfl
  | cons x xs ih =>
    intro i h
    have hx : x ≠ v := fun hxv => h (by simp [hxv])
    simp only [jsIndexOfAux, if_neg hx]
    exact ih (i + 1) (fun hm => h (by simp [hm]))

theorem jsIndexOf_not_mem (l : List JSStr) (v : JSStr) (h : v ∉ l) : jsIndexOf l v = -1 :=
  jsIndexOfAux_not_mem v l 0 h

theorem rangeFinset_mem (s e v : Int) : v ∈ rangeFinset s e ↔ s ≤ v ∧ v ≤ e := by
  unfold rangeFinset
  rw [List.mem_toFinset, List.mem_map]
  constructor
  · rintro ⟨k, hk, rfl⟩
    rw [List.mem_range] at hk
    simp only [Int.ofNat_eq_coe]
    omega
  · rintro ⟨h1, h2⟩
    refine ⟨(v - s).toNat, ?_, by simp only [Int.ofNat_eq_coe]; omega⟩
    rw [List.mem_range]
    omega

theorem enum_unlisted_helper {τ : Type} (t : NodeType) (es : List (Edge τ)) (e : Edge τ)
    (dom : DomainM) (hdv : dom.getDomainValue e.value = some (-1))
    (hinit : (-1 : Int) ∉ dom.availableValuesSet) :
    (-1 : Int) ∉ (runEdges (mkNonTerminalNode t dom : NonTerminalNode τ) es).domain.availableValuesSet ∧
    addEdge (runEdges (mkNonTerminalNode t dom) es) e =
      Except.error { node := runEdges (mkNonTerminalNode t dom) es, value := e.value } := by
  have hnot : (-1 : Int) ∉
      (runEdges (mkNonTerminalNode t dom : NonTerminalNode τ) es).domain.availableValuesSet :=
    fun hm => hinit (runEdges_avail_subset es (mkNonTerminalNode t dom) hm)
  refine ⟨hnot, ?_⟩
  apply addEdge_error_of_not_has
  have hdv2 : (runEdges (mkNonTerminalNode t dom : NonTerminalNode τ) es).domain.getDomainValue
      e.value = some (-1) := by
    rw [runEdges_getDomainValue]
    exact hdv
  rw [hdv2]
  simp only [DomainM.has, decide_eq_false_iff_not]
  exact hnot

/-
The claims.
-/

/-- Claim C1: for every non-terminal node, after any finite sequence of
`addEdge` calls starting from a freshly constructed node, any two edges in
the node's edge list have distinct decoded values: at most one edge ever
leaves a given node for a given decoded header value. -/
theorem claim_c1_distinct_decoded_values (τ : Type) (t : NodeType) (dom : DomainM)
    (es : List (Edge τ)) :
    ((runEdges (mkNonTerminalNode t dom) es).edges.map
      (fun f => (runEdges (mkNonTerminalNode t dom) es).domain.getDomainValue f.value)).Pairwise
      (· ≠ ·) :=
  (runEdges_inv es (mkNonTerminalNode t dom)
    (fun f hf => absurd hf (by simp [mkNonTerminalNode]))
    (by simp [mkNonTerminalNode])).2

/-- Claim C2: when the decoded value of the edge is available in the node's
domain, `addEdge` succeeds, appends exactly the edge as the new last element
of the edge list, and afterwards the decoded value is no longer available. -/
theorem claim_c2_addEdge_success (τ : Type) (n : NonTerminalNode τ) (e : Edge τ)
    (h : n.domain.has (n.domain.getDomainValue e.value) = true) :
    ∃ m, addEdge n e = Except.ok m ∧
      m.edges = n.edges ++ [e] ∧
      m.domain.has (n.domain.getDomainValue e.value) = false ∧
      m.domain.getDomainValue = n.domain.getDomainValue ∧
      m.type = n.type := by
  refine ⟨_, addEdge_ok_of_has n e h, rfl, ?_, delete_getDomainValue n.domain _, rfl⟩
  obtain ⟨k, hk⟩ : ∃ k, n.domain.getDomainValue e.value = some k := by
    cases hv : n.domain.getDomainValue e.value with
    | none => rw [hv] at h; simp [DomainM.has] at h
    | some k => exact ⟨k, rfl⟩
  rw [hk]
  exact delete_has_self n.domain k

/-- Witness for C2 at a concrete input: a fresh protocol node accepts an
edge labelled "tcp". -/
theorem claim_c2_witness :
    ((mkNonTerminalNode NodeType.protocol mkProtocol : NonTerminalNode Unit).domain.has
      ((mkNonTerminalNode NodeType.protocol mkProtocol : NonTerminalNode Unit).domain.getDomainValue
        (strToList "tcp")) = true) ∧
    ∃ m, addEdge (mkNonTerminalNode NodeType.protocol mkProtocol)
        { source := (), target := (), value := strToList "tcp" } = Except.ok m ∧
      m.edges = (mkNonTerminalNode NodeType.protocol mkProtocol : NonTerminalNode Unit).edges ++
        [{ source := (), target := (), value := strToList "tcp" }] ∧
      m.domain.has ((mkNonTerminalNode NodeType.protocol mkProtocol :
        NonTerminalNode Unit).domain.getDomainValue (strToList "tcp")) = false ∧
      m.domain.getDomainValue = (mkNonTerminalNode NodeType.protocol mkProtocol :
        NonTerminalNode Unit).domain.getDomainValue ∧
      m.type = (mkNonTerminalNode NodeType.protocol mkProtocol : NonTerminalNode Unit).type :=
  ⟨by decide, claim_c2_addEdge_success Unit (mkNonTerminalNode NodeType.protocol mkProtocol)
    { source := (), target := (), value := strToList "tcp" } (by decide)⟩

/-- Claim C3: when the decoded value of the edge is not available in the
node's domain, `addEdge` fails with `ValueNotAvailableError` carrying the
node and the raw literal value; the error's node is the pre-call state, so
neither the edge list nor the availability pool was touched. -/
theorem claim_c3_addEdge_failure (τ : Type) (n : NonTerminalNode τ) (e : Edge τ)
    (h : n.domain.has (n.domain.getDomainValue e.value) = false) :
    addEdge n e = Except.error { node := n, value := e.value } :=
  addEdge_error_of_not_has n e h

/-- Witness for C3 at a concrete input: a fresh action node rejects an edge
labelled "accept" (not a listed action name, so never available). -/
theorem claim_c3_witness :
    ((mkNonTerminalNode NodeType.action mkAction : NonTerminalNode Unit).domain.has
      ((mkNonTerminalNode NodeType.action mkAction : NonTerminalNode Unit).domain.getDomainValue
        (strToList "accept")) = false) ∧
    addEdge (mkNonTerminalNode NodeType.action mkAction)
      { source := (), target := (), value := strToList "accept" } =
      Except.error { node := (mkNonTerminalNode NodeType.action mkAction : NonTerminalNode Unit),
                     value := strToList "accept" } :=
  ⟨by decide, claim_c3_addEdge_failure Unit (mkNonTerminalNode NodeType.action mkAction)
    { source := (), target := (), value := strToList "accept" } (by decide)⟩

/-- Claim C4: for every domain variant and every admissible external value
(a canonical dotted-quad for the address range, a canonical decimal port
numeral within bounds, a listed protocol or action name),
`getRangeValue (getDomainValue v) = v`. -/
theorem claim_c4_decode_encode_id :
    (∀ a b c d : Nat, a < 256 → b < 256 → c < 256 → d < 256 →
      (ipGetDomainValue (quadStr a b c d)).map ipGetRangeValue = some (quadStr a b c d)) ∧
    (∀ k : Nat, 1 ≤ k → k ≤ 65535 →
      (portGetDomainValue (natToDec k)).map portGetRangeValue = some (natToDec k)) ∧
    (∀ v ∈ protocolList, (protocolGetDomainValue v).map protocolGetRangeValue = some v) ∧
    (∀ v ∈ actionList, (actionGetDomainValue v).map actionGetRangeValue = some v) := by
  refine ⟨?_, ?_, by decide, by decide⟩
  · intro a b c d ha hb hc hd
    show some (ipGetRangeValue (ipEncode (quadStr a b c d))) = some (quadStr a b c d)
    rw [ipEncode_quad a b c d ha hb hc hd, ipDecode_quad a b c d ha hb hc hd]
  · intro k h1 h2
    show (jsParseInt (natToDec k)).map portGetRangeValue = some (natToDec k)
    rw [jsParseInt_natToDec]
    show some (portGetRangeValue ((k : Nat) : Int)) = some (natToDec k)
    rw [show portGetRangeValue ((k : Nat) : Int) = intToDec ((k : Nat) : Int) from rfl,
      intToDec_ofNat]

/-- Witness for C4: the round trip evaluated at one concrete admissible
value per variant. -/
theorem claim_c4_witness :
    (ipGetDomainValue (quadStr 192 168 1 10)).map ipGetRangeValue = some (quadStr 192 168 1 10) ∧
    (portGetDomainValue (natToDec 80)).map portGetRangeValue = some (natToDec 80) ∧
    (protocolGetDomainValue (strToList "tcp")).map protocolGetRangeValue =
      some (strToList "tcp") ∧
    (actionGetDomainValue (strToList "allow")).map actionGetRangeValue =
      some (strToList "allow") :=
  ⟨claim_c4_decode_encode_id.1 192 168 1 10 (by decide) (by decide) (by decide) (by decide),
   claim_c4_decode_encode_id.2.1 80 (by decide) (by decide),
   claim_c4_decode_encode_id.2.2.1 (strToList "tcp") (by decide),
   claim_c4_decode_encode_id.2.2.2 (strToList "allow") (by decide)⟩

/-- Counterexample to claim C5 as stated: over arbitrary external values the
encodings are not collision-free — the protocol domain sends the two
distinct unlisted names "http" and "ftp" to the same integer (-1). -/
theorem claim_c5_counterexample :
    protocolGetDomainValue (strToList "http") = protocolGetDomainValue (strToList "ftp") ∧
    strToList "http" ≠ strToList "ftp" := by
  refine ⟨by decide, by decide⟩

/-- Claim C5 (amended): restricted to admissible external values of each
variant, `getDomainValue` is collision-free (it is deterministic on every
input, being a pure function of its argument). -/
theorem claim_c5_injective_on_admissible :
    (∀ a b c d a2 b2 c2 d2 : Nat, a < 256 → b < 256 → c < 256 → d < 256 →
      a2 < 256 → b2 < 256 → c2 < 256 → d2 < 256 →
      ipGetDomainValue (quadStr a b c d) = ipGetDomainValue (quadStr a2 b2 c2 d2) →
      quadStr a b c d = quadStr a2 b2 c2 d2) ∧
    (∀ k k2 : Nat, 1 ≤ k → k ≤ 65535 → 1 ≤ k2 → k2 ≤ 65535 →
      portGetDomainValue (natToDec k) = portGetDomainValue (natToDec k2) →
      natToDec k = natToDec k2) ∧
    (∀ v ∈ protocolList, ∀ w ∈ protocolList,
      protocolGetDomainValue v = protocolGetDomainValue w → v = w) ∧
    (∀ v ∈ actionList, ∀ w ∈ actionList,
      actionGetDomainValue v = actionGetDomainValue w → v = w) := by
  refine ⟨?_, ?_, by decide, by decide⟩
  · intro a b c d a2 b2 c2 d2 ha hb hc hd ha2 hb2 hc2 hd2 heq
    simp only [ipGetDomainValue, Option.some.injEq] at heq
    rw [ipEncode_quad a b c d ha hb hc hd, ipEncode_quad a2 b2 c2 d2 ha2 hb2 hc2 hd2] at heq
    obtain ⟨rfl, rfl, rfl, rfl⟩ : a = a2 ∧ b = b2 ∧ c = c2 ∧ d = d2 := by omega
    rfl
  · intro k k2 h1 h2 h12 h22 heq
    simp only [portGetDomainValue, jsParseInt_natToDec, Option.some.injEq] at heq
    obtain rfl : k = k2 := by omega
    rfl

/-- Witness for C5 (amended): the injectivity statements applied at
concrete admissible inputs. -/
theorem claim_c5_witness :
    quadStr 10 0 0 1 = quadStr 10 0 0 1 ∧ natToDec 80 = natToDec 80 ∧
    strToList "udp" = strToList "udp" ∧ strToList "discard" = strToList "discard" :=
  ⟨claim_c5_injective_on_admissible.1 10 0 0 1 10 0 0 1 (by decide) (by decide) (by decide)
      (by decide) (by decide) (by decide) (by decide) (by decide) rfl,
   claim_c5_injective_on_admissible.2.1 80 80 (by decide) (by decide) (by decide) (by decide) rfl,
   claim_c5_injective_on_admissible.2.2.1 (strToList "udp") (by decide) (strToList "udp")
     (by decide) rfl,
   claim_c5_injective_on_admissible.2.2.2 (strToList "discard") (by decide) (strToList "discard")
     (by decide) rfl⟩

/-- Claim C6: the address-range encoding is big-endian 4-octet composition
into a 32-bit unsigned integer, at the three concrete values the claim
names. -/
theorem claim_c6_bigendian_octets :
    ipGetDomainValue (strToList "0.0.0.0") = some 0 ∧
    ipGetDomainValue (strToList "255.255.255.255") = some 4294967295 ∧
    (ipGetDomainValue (strToList "192.168.1.10")).map ipGetRangeValue =
      some (strToList "192.168.1.10") := by
  refine ⟨by decide, by decide, by decide⟩

/-- Claim C7: a port-range domain over [1, 65535] reports 1 and 65535
available and 0 and 65536 unavailable immediately after construction; in
general, construction from an inclusive bound pair populates exactly the
integers from start to end inclusive. -/
theorem claim_c7_port_range_population :
    (mkPortRange 1 65535).has (some 1) = true ∧
    (mkPortRange 1 65535).has (some 65535) = true ∧
    (mkPortRange 1 65535).has (some 0) = false ∧
    (mkPortRange 1 65535).has (some 65536) = false ∧
    ∀ start stop v : Int,
      ((mkPortRange start stop).has (some v) = true ↔ start ≤ v ∧ v ≤ stop) := by
  have hgen : ∀ start stop v : Int,
      ((mkPortRange start stop).has (some v) = true ↔ start ≤ v ∧ v ≤ stop) := by
    intro s e v
    show decide (v ∈ (mkPortRange s e).availableValuesSet) = true ↔ _
    rw [decide_eq_true_eq]
    exact rangeFinset_mem s e v
  have hfalse : ∀ v : Int, ¬(1 ≤ v ∧ v ≤ 65535) →
      (mkPortRange 1 65535).has (some v) = false := by
    intro v hv
    cases hb : (mkPortRange 1 65535).has (some v) with
    | false => rfl
    | true => exact absurd ((hgen 1 65535 v).mp hb) hv
  exact ⟨(hgen 1 65535 1).mpr (by omega), (hgen 1 65535 65535).mpr (by omega),
    hfalse 0 (by omega), hfalse 65536 (by omega), hgen⟩

/-- Claim C8: immediately after construction the protocol domain encodes
exactly tcp to 0, udp to 1, icmp to 2 with availability pool {0, 1, 2}, and
the action domain holds exactly "allow" then "discard" in declared order,
encoding to 0 and 1, with availability pool {0, 1}. -/
theorem claim_c8_enumeration_contents :
    protocolList = [strToList "tcp", strToList "udp", strToList "icmp"] ∧
    protocolGetDomainValue (strToList "tcp") = some 0 ∧
    protocolGetDomainValue (strToList "udp") = some 1 ∧
    protocolGetDomainValue (strToList "icmp") = some 2 ∧
    mkProtocol.availableValuesSet = {0, 1, 2} ∧
    actionList = [strToList "allow", strToList "discard"] ∧
    actionGetDomainValue (strToList "allow") = some 0 ∧
    actionGetDomainValue (strToList "discard") = some 1 ∧
    mkAction.availableValuesSet = {0, 1} := by
  refine ⟨rfl, by decide, by decide, by decide, by decide, rfl, by decide, by decide, by decide⟩

/-- Claim C9: the terminal-node constructor never validates or consumes:
`mkActionNode v` succeeds for every decision literal `v` (including
"accept", which is not a listed action name), stores `v` unchanged, and its
private domain snapshot keeps the full initial availability pool.  The
embedding of `TerminalNode` has no mutating operation, mirroring the
source, which defines none. -/
theorem claim_c9_terminal_never_validates :
    (∀ v : JSStr, (mkActionNode v).value = v ∧ (mkActionNode v).type = NodeType.action ∧
      (mkActionNode v).domain.availableValuesSet = actionCreateRangeSet) ∧
    strToList "accept" ∉ actionList ∧
    (mkActionNode (strToList "accept")).value = strToList "accept" ∧
    (mkActionNode (strToList "accept")).domain.availableValuesSet = {0, 1} := by
  refine ⟨fun v => ⟨rfl, rfl, rfl⟩, by decide, rfl, by decide⟩

/-- Claim C10: on an enumeration domain (protocol or action), an edge value
that is not a listed name decodes to -1 (the `indexOf` miss value), -1 is
never in the availability pool of any reachable node state, and `addEdge`
therefore always fails with `ValueNotAvailableError`. -/
theorem claim_c10_unlisted_name_rejected (τ : Type) (t : NodeType) (es : List (Edge τ))
    (e : Edge τ) :
    (e.value ∉ protocolList →
      protocolGetDomainValue e.value = some (-1) ∧
      (-1 : Int) ∉
        (runEdges (mkNonTerminalNode t mkProtocol : NonTerminalNode τ) es).domain.availableValuesSet ∧
      addEdge (runEdges (mkNonTerminalNode t mkProtocol) es) e =
        Except.error { node := runEdges (mkNonTerminalNode t mkProtocol) es, value := e.value }) ∧
    (e.value ∉ actionList →
      actionGetDomainValue e.value = some (-1) ∧
      (-1 : Int) ∉
        (runEdges (mkNonTerminalNode t mkAction : NonTerminalNode τ) es).domain.availableValuesSet ∧
      addEdge (runEdges (mkNonTerminalNode t mkAction) es) e =
        Except.error { node := runEdges (mkNonTerminalNode t mkAction) es, value := e.value }) := by
  constructor
  · intro hmem
    have hdv : protocolGetDomainValue e.value = some (-1) := by
      unfold protocolGetDomainValue
      rw [jsIndexOf_not_mem _ _ hmem]
    have h := enum_unlisted_helper t es e mkProtocol hdv (by decide)
    exact ⟨hdv, h.1, h.2⟩
  · intro hmem
    have hdv : actionGetDomainValue e.value = some (-1) := by
      unfold actionGetDomainValue
      rw [jsIndexOf_not_mem _ _ hmem]
    have h := enum_unlisted_helper t es e mkAction hdv (by decide)
    exact ⟨hdv, h.1, h.2⟩

/-- Witness for C10: a fresh protocol node rejects the unlisted name
"http", and a fresh action node rejects the unlisted name "accept2". -/
theorem claim_c10_witness :
    (protocolGetDomainValue (strToList "http") = some (-1) ∧
      addEdge (mkNonTerminalNode NodeType.protocol mkProtocol : NonTerminalNode Unit)
        { source := (), target := (), value := strToList "http" } =
        Except.error { node := mkNonTerminalNode NodeType.protocol mkProtocol,
                       value := strToList "http" }) ∧
    (actionGetDomainValue (strToList "accept2") = some (-1) ∧
      addEdge (mkNonTerminalNode NodeType.action mkAction : NonTerminalNode Unit)
        { source := (), target := (), value := strToList "accept2" } =
        Except.error { node := mkNonTerminalNode NodeType.action mkAction,
                       value := strToList "accept2" }) := by
  have h1 := (claim_c10_unlisted_name_rejected Unit NodeType.protocol []
    { source := (), target := (), value := strToList "http" }).1 (by decide)
  have h2 := (claim_c10_unlisted_name_rejected Unit NodeType.action []
    { source := (), target := (), value := strToList "accept2" }).2 (by decide)
  exact ⟨⟨h1.1, h1.2.2⟩, ⟨h2.1, h2.2.2⟩⟩

end FirewallBP
